import Mathlib

/-!
Verification of the external merge-sort engine of this repository
(main source: `src/unnamed/part_003`, a Go program).

Shallow embedding conventions:
* a Go `string` is a byte sequence, modelled as `List Nat` (each entry a byte value);
* the Go `int` key is modelled as `Int` (64-bit platform; overflow of
  `fmt.Sscanf` is modelled by its explicit int64 range check);
* channels are modelled by the list of values sent on them, in order;
* a temporary file holding a sorted chunk is modelled by its content,
  a `List Line`;
* `sort.Sort` is modelled by insertion sort on the same comparator
  (a comparison sort; Go's standard sort itself runs plain insertion sort
  for slices of at most 12 elements, so the model agrees with Go exactly
  on all short slices, and agrees up to the order of comparator-equal
  elements otherwise).
-/

namespace ExtSort

/-- A Go string: a sequence of byte values. -/
abbrev Str := List Nat

/-- Go's built-in `<` on strings: byte-wise lexicographic order
(`a.str < b.str` in `line.less`, src/unnamed/part_003:240). -/
def strLt : Str → Str → Bool
  | [], [] => false
  | [], _ :: _ => true
  | _ :: _, [] => false
  | a :: as, b :: bs => if a < b then true else if b < a then false else strLt as bs

/-- The `line` struct (src/unnamed/part_003:221-224): the text of one
input line together with its numeric-mode key. -/
structure Line where
  num : Int
  str : Str
deriving DecidableEq, Repr

/-- `chunkSize` (src/unnamed/part_003:16). -/
def chunkSize : Nat := 500000

/-- `mergeSize` (src/unnamed/part_003:17). -/
def mergeSize : Nat := 10

/-- The default `bufio.Reader` buffer size (4096 bytes): the maximum
physical line length `readLines` can return in one piece. -/
def bufSize : Nat := 4096

/-- `int(math.MinInt32)` (src/unnamed/part_003:230): the sentinel key
for lines with no parsable numeric prefix. -/
def minInt32 : Int := -(2 ^ 31)

/-- Bytes skipped as white space by `fmt`'s scanner before a `%d` item
(ASCII: tab, vertical tab, form feed, carriage return, space).
A newline is not skipped: in `Sscanf` it is a scan error instead. -/
def isSpaceByte (b : Nat) : Bool := b = 9 || b = 11 || b = 12 || b = 13 || b = 32

/-- A decimal digit byte. -/
def isDigitByte (b : Nat) : Bool := 48 ≤ b && b ≤ 57

/-- The numeric value of a digit run. -/
def digitsVal (ds : List Nat) : Nat := ds.foldl (fun a d => a * 10 + (d - 48)) 0

/-- Models `fmt.Sscanf(s, "%d", &num)` (src/unnamed/part_003:229):
skip leading spaces, optional sign, then a longest run of decimal digits;
`none` when no digit follows (scan failure, `n != 1 || err != nil`),
when the first non-space byte is a newline, or when the value is outside
the 64-bit `int` range (`strconv` range error). Trailing bytes after the
digits are left unconsumed and are not an error for `Sscanf`. -/
def sscanfInt (s : Str) : Option Int :=
  let s1 := s.dropWhile isSpaceByte
  if s1.head? = some 10 then none
  else
    let neg := s1.head? = some 45
    let s2 := if s1.head? = some 45 || s1.head? = some 43 then s1.tail else s1
    let ds := s2.takeWhile isDigitByte
    if ds.isEmpty then none
    else
      let v : Nat := digitsVal ds
      if neg then (if v ≤ 2 ^ 63 then some (-(v : Int)) else none)
      else (if v ≤ 2 ^ 63 - 1 then some (v : Int) else none)

/-- `makeLine` (src/unnamed/part_003:226-234). `nf` is the `-n` flag.
In numeric mode a failed scan leaves the key at `int(math.MinInt32)`;
otherwise `num` keeps its zero value. -/
def makeLine (nf : Bool) (s : Str) : Line :=
  if nf then
    match sscanfInt s with
    | some v => { num := v, str := s }
    | none => { num := minInt32, str := s }
  else { num := 0, str := s }

/-- `line.less` (src/unnamed/part_003:236-241): numeric mode compares the
derived keys only; lexicographic mode compares the full text. -/
def Line.less (nf : Bool) (a b : Line) : Bool :=
  if nf then decide (a.num < b.num) else strLt a.str b.str

/-- The non-strict order induced by the comparator: `a` may precede `b`
exactly when `b` is not strictly less than `a`. Output of the engine is
non-decreasing with respect to this relation. -/
def lineLE (nf : Bool) (a b : Line) : Prop := Line.less nf b a = false

instance (nf : Bool) : DecidableRel (lineLE nf) := fun a b =>
  Bool.decEq (Line.less nf b a) false

end ExtSort

namespace ExtSort

theorem strLt_irrefl (s : Str) : strLt s s = false := by
  induction s with
  | nil => rfl
  | cons a as ih => simp [strLt, ih]

theorem strLt_trans {a b c : Str} (hab : strLt a b = true) (hbc : strLt b c = true) :
    strLt a c = true := by
  induction a generalizing b c with
  | nil =>
    cases c with
    | nil =>
      cases b with
      | nil => exact hbc
      | cons y ys => simp [strLt] at hbc
    | cons z zs => simp [strLt]
  | cons x xs ih =>
    cases b with
    | nil => simp [strLt] at hab
    | cons y ys =>
      cases c with
      | nil => simp [strLt] at hbc
      | cons z zs =>
        simp only [strLt] at hab hbc ⊢
        rcases Nat.lt_trichotomy x y with hxy | hxy | hxy
        · rcases Nat.lt_trichotomy y z with hyz | hyz | hyz
          · have hxz : x < z := Nat.lt_trans hxy hyz
            simp [hxz]
          · subst hyz
            simp [hxy]
          · rw [if_neg (Nat.lt_asymm hyz), if_pos hyz] at hbc
            exact absurd hbc (by simp)
        · subst hxy
          rw [if_neg (Nat.lt_irrefl x), if_neg (Nat.lt_irrefl x)] at hab
          rcases Nat.lt_trichotomy x z with hxz | hxz | hxz
          · simp [hxz]
          · subst hxz
            rw [if_neg (Nat.lt_irrefl x), if_neg (Nat.lt_irrefl x)] at hbc ⊢
            exact ih hab hbc
          · rw [if_neg (Nat.lt_asymm hxz), if_pos hxz] at hbc
            exact absurd hbc (by simp)
        · rw [if_neg (Nat.lt_asymm hxy), if_pos hxy] at hab
          exact absurd hab (by simp)

theorem strLt_conn {a b : Str} (hab : strLt a b = false) (hba : strLt b a = false) :
    a = b := by
  induction a generalizing b with
  | nil =>
    cases b with
    | nil => rfl
    | cons y ys => simp [strLt] at hab
  | cons x xs ih =>
    cases b with
    | nil => simp [strLt] at hba
    | cons y ys =>
      simp only [strLt] at hab hba
      rcases Nat.lt_trichotomy x y with hxy | hxy | hxy
      · rw [if_pos hxy] at hab
        exact absurd hab (by simp)
      · subst hxy
        rw [if_neg (Nat.lt_irrefl x), if_neg (Nat.lt_irrefl x)] at hab hba
        rw [ih hab hba]
      · rw [if_neg (Nat.lt_asymm hxy), if_pos hxy] at hba
        exact absurd hba (by simp)

theorem strLt_asymm {a b : Str} (h : strLt a b = true) : strLt b a = false := by
  by_contra hne
  have hba : strLt b a = true := by
    cases hv : strLt b a with
    | false => exact absurd hv hne
    | true => rfl
  have : strLt a a = true := strLt_trans h hba
  rw [strLt_irrefl] at this
  exact Bool.false_ne_true this

theorem strLt_negtrans {a b c : Str} (hba : strLt b a = false) (hcb : strLt c b = false) :
    strLt c a = false := by
  by_contra hne
  have hca : strLt c a = true := by
    cases hv : strLt c a with
    | false => exact absurd hv hne
    | true => rfl
  by_cases hbc : strLt b c = true
  · have : strLt b a = true := strLt_trans hbc hca
    rw [hba] at this
    exact Bool.false_ne_true this
  · have hbc' : strLt b c = false := by
      cases hv : strLt b c with
      | false => rfl
      | true => exact absurd hv hbc
    have : b = c := strLt_conn hbc' hcb
    subst this
    rw [hba] at hca
    exact Bool.false_ne_true hca

theorem less_asymm {nf : Bool} {a b : Line} (h : Line.less nf a b = true) :
    Line.less nf b a = false := by
  cases nf with
  | false =>
    simp only [Line.less, if_false, Bool.false_eq_true] at h ⊢
    exact strLt_asymm h
  | true =>
    simp only [Line.less, if_true, decide_eq_true_eq, decide_eq_false_iff_not] at h ⊢
    omega

theorem less_negtrans {nf : Bool} {a b c : Line} (hba : Line.less nf b a = false)
    (hcb : Line.less nf c b = false) : Line.less nf c a = false := by
  cases nf with
  | false =>
    simp only [Line.less, if_false, Bool.false_eq_true] at hba hcb ⊢
    exact strLt_negtrans hba hcb
  | true =>
    simp only [Line.less, if_true, decide_eq_false_iff_not] at hba hcb ⊢
    omega

instance (nf : Bool) : IsTrans Line (lineLE nf) :=
  ⟨fun _ _ _ hab hbc => less_negtrans hab hbc⟩

instance (nf : Bool) : IsTotal Line (lineLE nf) := by
  refine ⟨fun a b => ?_⟩
  cases hv : Line.less nf b a with
  | false => exact Or.inl hv
  | true => exact Or.inr (less_asymm hv)

end ExtSort

namespace ExtSort

/-- Models `sort.Sort(c)` on a `chunk` with `chunk.Less i j = c[i].less(c[j])`
(src/unnamed/part_003:83-95, 104, 110): a comparison sort for the comparator.
Modelled as insertion sort, which is exactly what Go's sort runs on slices
of at most 12 elements; on longer slices Go's sort produces the same
multiset in some comparator-sorted order. -/
def sortGo (nf : Bool) (c : List Line) : List Line :=
  List.insertionSort (lineLE nf) c

/-- Fuel-driven body of `chunks` (src/unnamed/part_003:97-116): gather
`sz` lines (`makeLine` applied to each), sort the chunk, emit it, and emit
a final partial chunk when input ends. Fuel at least the input length
makes the recursion total. -/
def chunksAux (nf : Bool) (sz : Nat) : Nat → List Str → List (List Line)
  | 0, _ => []
  | _ + 1, [] => []
  | f + 1, l :: ls =>
    sortGo nf (((l :: ls).take sz).map (makeLine nf)) ::
      chunksAux nf sz f ((l :: ls).drop sz)

/-- `chunks(lines, sz)`: the sequence of sorted chunks sent on the chunk
channel (src/unnamed/part_003:97-116). -/
def chunks (nf : Bool) (sz : Nat) (ls : List Str) : List (List Line) :=
  chunksAux nf sz ls.length ls

/-- The chunk-consuming loop of `mergeSort` (src/unnamed/part_003:39-54):
on the first chunk, if it is smaller than a full chunk and nothing has
been spilled, the chunk goes directly to standard output (`some c`);
otherwise every chunk is written to a temporary file (`writeChunk`) whose
content is accumulated in `tmps`. -/
def spillLoop (sz : Nat) : List (List Line) → List (List Line) →
    Option (List Line) × List (List Line)
  | [], tmps => (none, tmps)
  | c :: rest, tmps =>
    if decide (c.length < sz) && tmps.isEmpty then (some c, tmps)
    else spillLoop sz rest (tmps ++ [c])

/-- Concatenation of the contents of a list of sources. -/
def flatL : List (List Line) → List Line
  | [] => []
  | s :: ss => s ++ flatL ss

/-- One `heap.Pop` step of `merge` (src/unnamed/part_003:195-219): among
the non-exhausted sources, remove a head line that no other head is less
than (the heap's minimum; ties resolved to the earliest source), returning
it with the advanced sources. `none` when every source is exhausted. -/
def popMin (nf : Bool) : List (List Line) → Option (Line × List (List Line))
  | [] => none
  | [] :: ss => popMin nf ss
  | (a :: as) :: ss =>
    match popMin nf ss with
    | none => some (a, [as])
    | some (b, ss') =>
      if Line.less nf b a then some (b, (a :: as) :: ss') else some (a, as :: ss)

/-- Fuel-driven body of `merge` (src/unnamed/part_003:195-219): repeatedly
pop the minimum head and write it to the destination until the heap is
empty. -/
def mergeAllAux (nf : Bool) : Nat → List (List Line) → List Line
  | 0, _ => []
  | f + 1, ss =>
    match popMin nf ss with
    | none => []
    | some (a, ss') => a :: mergeAllAux nf f ss'

/-- `merge(w, paths)` (src/unnamed/part_003:195-219), modelled on the
retained line values of the source files: the sequence of lines written
to `w`. The on-disk serialization (`writeChunk` writes `l.str+"\n"`,
`newChunkFile`/`nextLine` re-read through `bufio.ReadLine`) is modelled
separately by `fileBytes`/`readChunkFile`/`mergeAllDisk` below; the two
agree exactly when no stored line ends in a carriage return, contains a
newline, or reaches the reader buffer size — `ReadLine` strips a
trailing `"\r\n"` and splits longer records, so outside those conditions
a spill file can read back altered. -/
def mergeAll (nf : Bool) (ss : List (List Line)) : List Line :=
  mergeAllAux nf (flatL ss).length ss

/-- Fuel-driven body of the merge-round loop of `mergeSort`
(src/unnamed/part_003:56-69): while more than `mergeSize` temporary files
are pending, merge the first `mergeSize` of them into one new temporary
file appended at the end. -/
def mergeRoundsAux (nf : Bool) : Nat → List (List Line) → List (List Line)
  | 0, ts => ts
  | f + 1, ts =>
    if mergeSize < ts.length then
      mergeRoundsAux nf f (ts.drop mergeSize ++ [mergeAll nf (ts.take mergeSize)])
    else ts

/-- The merge-round loop (src/unnamed/part_003:56-69): the pending list
after all intermediate rounds have run. -/
def mergeRounds (nf : Bool) (ts : List (List Line)) : List (List Line) :=
  mergeRoundsAux nf ts.length ts

/-- Number of intermediate merge rounds (each creates one temporary file)
for a given number of pending files; a round replaces `mergeSize` files
with one. -/
def roundsCountAux : Nat → Nat → Nat
  | 0, _ => 0
  | f + 1, n => if mergeSize < n then roundsCountAux f (n - 9) + 1 else 0

/-- Number of intermediate merge rounds for `n` pending files. -/
def roundsCount (n : Nat) : Nat := roundsCountAux n n

/-- `mergeSort` (src/unnamed/part_003:36-81) on the delivered line
sequence, error-free run: returns the sequence of lines written to
standard output and the number of temporary files created
(`writeChunk` plus one per intermediate merge round). Temporary files
are modelled here by their retained line values (an identity
round-trip); `mergeSortRunDisk` below models their byte contents and the
lossy `ReadLine` re-read faithfully. The two runs coincide whenever no
delivered line ends in a carriage return or reaches the reader buffer
size — in particular in the count-only and no-spill situations this
model is used for. -/
def mergeSortRun (nf : Bool) (input : List Str) : List Line × Nat :=
  match spillLoop chunkSize (chunks nf chunkSize input) [] with
  | (some c, _) => (c, 0)
  | (none, tmps) =>
    if tmps.isEmpty then ([], 0)
    else (mergeAll nf (mergeRounds nf tmps), tmps.length + roundsCount tmps.length)

end ExtSort

namespace ExtSort

theorem flatL_append (l1 l2 : List (List Line)) :
    flatL (l1 ++ l2) = flatL l1 ++ flatL l2 := by
  induction l1 with
  | nil => rfl
  | cons s ss ih => simp [flatL, ih]

theorem popMin_none {nf : Bool} : ∀ {ss : List (List Line)},
    popMin nf ss = none → flatL ss = []
  | [], _ => rfl
  | [] :: ss, h => by
    simp only [popMin] at h
    simpa [flatL] using popMin_none h
  | (a :: as) :: ss, h => by
    rcases hp : popMin nf ss with _ | ⟨b, ss'⟩
    · simp only [popMin, hp] at h
      exact absurd h (by simp)
    · simp only [popMin, hp] at h
      by_cases hb : Line.less nf b a = true <;> simp [hb] at h

theorem popMin_perm {nf : Bool} : ∀ {ss : List (List Line)} {a : Line}
    {ss' : List (List Line)}, popMin nf ss = some (a, ss') →
    List.Perm (flatL ss) (a :: flatL ss')
  | [], _, _, h => by simp [popMin] at h
  | [] :: ss, a, ss', h => by
    simp only [popMin] at h
    simpa [flatL] using popMin_perm h
  | (x :: xs) :: ss, a, ss', h => by
    rcases hp : popMin nf ss with _ | ⟨b, tt⟩
    · simp only [popMin, hp, Option.some.injEq, Prod.mk.injEq] at h
      rw [← h.1, ← h.2]
      simp [flatL, popMin_none hp]
    · simp only [popMin, hp] at h
      by_cases hb : Line.less nf b x = true
      · rw [if_pos hb] at h
        simp only [Option.some.injEq, Prod.mk.injEq] at h
        rw [← h.1, ← h.2]
        have ih : List.Perm (flatL ss) (b :: flatL tt) := popMin_perm hp
        have h1 : List.Perm ((x :: xs) ++ flatL ss) ((x :: xs) ++ (b :: flatL tt)) :=
          ih.append_left _
        have h2 : List.Perm ((x :: xs) ++ (b :: flatL tt)) (b :: ((x :: xs) ++ flatL tt)) :=
          List.perm_middle
        exact h1.trans h2
      · rw [if_neg hb] at h
        simp only [Option.some.injEq, Prod.mk.injEq] at h
        rw [← h.1, ← h.2]
        simp [flatL]

theorem popMin_length {nf : Bool} {ss : List (List Line)} {a : Line}
    {ss' : List (List Line)} (h : popMin nf ss = some (a, ss')) :
    (flatL ss).length = (flatL ss').length + 1 := by
  simpa using (popMin_perm h).length_eq

theorem popMin_min {nf : Bool} : ∀ {ss : List (List Line)} {a : Line}
    {ss' : List (List Line)}, popMin nf ss = some (a, ss') →
    (∀ s ∈ ss, List.Sorted (lineLE nf) s) →
    (∀ s ∈ ss', List.Sorted (lineLE nf) s) ∧ ∀ x ∈ flatL ss', lineLE nf a x
  | [], _, _, h, _ => by simp [popMin] at h
  | [] :: ss, a, ss', h, hs => by
    simp only [popMin] at h
    exact popMin_min h (fun s hm => hs s (List.mem_cons_of_mem _ hm))
  | (x :: xs) :: ss, a, ss', h, hs => by
    have hhead : List.Sorted (lineLE nf) (x :: xs) := hs _ (List.mem_cons_self _ _)
    have hxxs : ∀ y ∈ xs, lineLE nf x y := (List.sorted_cons.mp hhead).1
    have hxs : List.Sorted (lineLE nf) xs := (List.sorted_cons.mp hhead).2
    have htail : ∀ s ∈ ss, List.Sorted (lineLE nf) s :=
      fun s hm => hs s (List.mem_cons_of_mem _ hm)
    rcases hp : popMin nf ss with _ | ⟨b, tt⟩
    · simp only [popMin, hp, Option.some.injEq, Prod.mk.injEq] at h
      rw [← h.1, ← h.2]
      refine ⟨?_, ?_⟩
      · intro s hm
        rcases List.mem_singleton.mp hm with rfl
        exact hxs
      · intro y hy
        simp only [flatL, List.append_nil] at hy
        exact hxxs y hy
    · obtain ⟨hsorted', hmin'⟩ := popMin_min hp htail
      simp only [popMin, hp] at h
      by_cases hb : Line.less nf b x = true
      · rw [if_pos hb] at h
        simp only [Option.some.injEq, Prod.mk.injEq] at h
        rw [← h.1, ← h.2]
        refine ⟨?_, ?_⟩
        · intro s hm
          rcases List.mem_cons.mp hm with rfl | hm'
          · exact hhead
          · exact hsorted' s hm'
        · intro y hy
          simp only [flatL] at hy
          rcases List.mem_append.mp hy with hy1 | hy2
          · rcases List.mem_cons.mp hy1 with rfl | hy1'
            · exact less_asymm hb
            · exact less_negtrans (less_asymm hb) (hxxs y hy1')
          · exact hmin' y hy2
      · rw [if_neg hb] at h
        simp only [Option.some.injEq, Prod.mk.injEq] at h
        rw [← h.1, ← h.2]
        have hab : lineLE nf x b := by
          cases hv : Line.less nf b x with
          | false => exact hv
          | true => exact absurd hv hb
        refine ⟨?_, ?_⟩
        · intro s hm
          rcases List.mem_cons.mp hm with rfl | hm'
          · exact hxs
          · exact htail s hm'
        · intro y hy
          simp only [flatL] at hy
          rcases List.mem_append.mp hy with hy1 | hy2
          · exact hxxs y hy1
          · have : y ∈ b :: flatL tt := (popMin_perm hp).mem_iff.mp hy2
            rcases List.mem_cons.mp this with rfl | hy2'
            · exact hab
            · exact less_negtrans hab (hmin' y hy2')

theorem mergeAllAux_perm (nf : Bool) : ∀ (f : Nat) (ss : List (List Line)),
    (flatL ss).length ≤ f → List.Perm (flatL ss) (mergeAllAux nf f ss) := by
  intro f
  induction f with
  | zero =>
    intro ss hlen
    have : flatL ss = [] := List.length_eq_zero.mp (Nat.le_zero.mp hlen)
    simp [mergeAllAux, this]
  | succ f ih =>
    intro ss hlen
    rcases hp : popMin nf ss with _ | ⟨a, ss'⟩
    · simp [mergeAllAux, hp, popMin_none hp]
    · have hl : (flatL ss).length = (flatL ss').length + 1 := popMin_length hp
      have hlen' : (flatL ss').length ≤ f := by omega
      have step : List.Perm (flatL ss) (a :: flatL ss') := popMin_perm hp
      have tail : List.Perm (a :: flatL ss') (a :: mergeAllAux nf f ss') :=
        (ih ss' hlen').cons a
      have : List.Perm (flatL ss) (a :: mergeAllAux nf f ss') := step.trans tail
      simpa [mergeAllAux, hp] using this

theorem mergeAllAux_sorted (nf : Bool) : ∀ (f : Nat) (ss : List (List Line)),
    (flatL ss).length ≤ f → (∀ s ∈ ss, List.Sorted (lineLE nf) s) →
    List.Sorted (lineLE nf) (mergeAllAux nf f ss) := by
  intro f
  induction f with
  | zero => intro ss _ _; simp [mergeAllAux, List.Sorted]
  | succ f ih =>
    intro ss hlen hs
    rcases hp : popMin nf ss with _ | ⟨a, ss'⟩
    · simp [mergeAllAux, hp, List.Sorted]
    · obtain ⟨hsorted', hmin'⟩ := popMin_min hp hs
      have hl : (flatL ss).length = (flatL ss').length + 1 := popMin_length hp
      have hlen' : (flatL ss').length ≤ f := by omega
      simp only [mergeAllAux, hp]
      rw [List.sorted_cons]
      refine ⟨?_, ih ss' hlen' hsorted'⟩
      intro b hb
      have : b ∈ flatL ss' := ((mergeAllAux_perm nf f ss' hlen').symm.mem_iff).mp hb
      exact hmin' b this

theorem mergeAll_perm (nf : Bool) (ss : List (List Line)) :
    List.Perm (flatL ss) (mergeAll nf ss) :=
  mergeAllAux_perm nf _ ss (Nat.le_refl _)

theorem mergeAll_sorted (nf : Bool) (ss : List (List Line))
    (hs : ∀ s ∈ ss, List.Sorted (lineLE nf) s) :
    List.Sorted (lineLE nf) (mergeAll nf ss) :=
  mergeAllAux_sorted nf _ ss (Nat.le_refl _) hs

theorem mergeAll_length (nf : Bool) (ss : List (List Line)) :
    (mergeAll nf ss).length = (flatL ss).length :=
  ((mergeAll_perm nf ss).length_eq).symm

end ExtSort

namespace ExtSort

theorem mergeRoundsAux_len {nf : Bool} : ∀ (f : Nat) (ts : List (List Line)),
    ts.length ≤ f → (mergeRoundsAux nf f ts).length ≤ mergeSize := by
  intro f
  induction f with
  | zero =>
    intro ts hlen
    have : ts = [] := List.length_eq_zero.mp (Nat.le_zero.mp hlen)
    subst this
    simp [mergeRoundsAux, mergeSize]
  | succ f ih =>
    intro ts hlen
    by_cases hc : mergeSize < ts.length
    · rw [mergeRoundsAux, if_pos hc]
      apply ih
      have hd : (ts.drop mergeSize).length = ts.length - mergeSize := List.length_drop _ _
      simp only [List.length_append, hd, List.length_singleton]
      have hm : mergeSize = 10 := rfl
      omega
    · rw [mergeRoundsAux, if_neg hc]
      omega

theorem mergeRoundsAux_irrel {nf : Bool} : ∀ (f g : Nat) (ts : List (List Line)),
    ts.length ≤ f → ts.length ≤ g → mergeRoundsAux nf f ts = mergeRoundsAux nf g ts := by
  intro f
  induction f with
  | zero =>
    intro g ts hf hg
    have : ts = [] := List.length_eq_zero.mp (Nat.le_zero.mp hf)
    subst this
    cases g with
    | zero => rfl
    | succ g => simp [mergeRoundsAux, mergeSize]
  | succ f ih =>
    intro g ts hf hg
    cases g with
    | zero =>
      have : ts = [] := List.length_eq_zero.mp (Nat.le_zero.mp hg)
      subst this
      simp [mergeRoundsAux, mergeSize]
    | succ g =>
      by_cases hc : mergeSize < ts.length
      · rw [mergeRoundsAux, if_pos hc, mergeRoundsAux, if_pos hc]
        have hd : (ts.drop mergeSize).length = ts.length - mergeSize := List.length_drop _ _
        have hm : mergeSize = 10 := rfl
        apply ih
        · simp only [List.length_append, hd, List.length_singleton]; omega
        · simp only [List.length_append, hd, List.length_singleton]; omega
      · rw [mergeRoundsAux, if_neg hc, mergeRoundsAux, if_neg hc]

theorem mergeRoundsAux_ne_nil {nf : Bool} : ∀ (f : Nat) (ts : List (List Line)),
    ts ≠ [] → ts.length ≤ f → mergeRoundsAux nf f ts ≠ [] := by
  intro f
  induction f with
  | zero =>
    intro ts hne hlen
    exact absurd (List.length_eq_zero.mp (Nat.le_zero.mp hlen)) hne
  | succ f ih =>
    intro ts hne hlen
    by_cases hc : mergeSize < ts.length
    · rw [mergeRoundsAux, if_pos hc]
      apply ih
      · simp
      · have hd : (ts.drop mergeSize).length = ts.length - mergeSize := List.length_drop _ _
        have hm : mergeSize = 10 := rfl
        simp only [List.length_append, hd, List.length_singleton]
        omega
    · rw [mergeRoundsAux, if_neg hc]
      exact hne

theorem mergeRoundsAux_flat_perm {nf : Bool} : ∀ (f : Nat) (ts : List (List Line)),
    ts.length ≤ f → List.Perm (flatL (mergeRoundsAux nf f ts)) (flatL ts) := by
  intro f
  induction f with
  | zero =>
    intro ts hlen
    have : ts = [] := List.length_eq_zero.mp (Nat.le_zero.mp hlen)
    subst this
    simp [mergeRoundsAux]
  | succ f ih =>
    intro ts hlen
    by_cases hc : mergeSize < ts.length
    · rw [mergeRoundsAux, if_pos hc]
      have hd : (ts.drop mergeSize).length = ts.length - mergeSize := List.length_drop _ _
      have hm : mergeSize = 10 := rfl
      have hstep := ih (ts.drop mergeSize ++ [mergeAll nf (ts.take mergeSize)])
        (by simp only [List.length_append, hd, List.length_singleton]; omega)
      refine hstep.trans ?_
      have h1 : flatL (ts.drop mergeSize ++ [mergeAll nf (ts.take mergeSize)]) =
          flatL (ts.drop mergeSize) ++ mergeAll nf (ts.take mergeSize) := by
        rw [flatL_append]
        simp [flatL]
      rw [h1]
      have h2 : List.Perm (flatL (ts.drop mergeSize) ++ mergeAll nf (ts.take mergeSize))
          (flatL (ts.drop mergeSize) ++ flatL (ts.take mergeSize)) :=
        List.Perm.append_left _ (mergeAll_perm nf _).symm
      refine h2.trans ?_
      have h3 : List.Perm (flatL (ts.drop mergeSize) ++ flatL (ts.take mergeSize))
          (flatL (ts.take mergeSize) ++ flatL (ts.drop mergeSize)) :=
        List.perm_append_comm
      refine h3.trans ?_
      rw [← flatL_append, List.take_append_drop]
    · rw [mergeRoundsAux, if_neg hc]

theorem mergeRoundsAux_sorted {nf : Bool} : ∀ (f : Nat) (ts : List (List Line)),
    ts.length ≤ f → (∀ s ∈ ts, List.Sorted (lineLE nf) s) →
    ∀ s ∈ mergeRoundsAux nf f ts, List.Sorted (lineLE nf) s := by
  intro f
  induction f with
  | zero =>
    intro ts hlen hs
    have : ts = [] := List.length_eq_zero.mp (Nat.le_zero.mp hlen)
    subst this
    simp [mergeRoundsAux]
  | succ f ih =>
    intro ts hlen hs
    by_cases hc : mergeSize < ts.length
    · rw [mergeRoundsAux, if_pos hc]
      have hd : (ts.drop mergeSize).length = ts.length - mergeSize := List.length_drop _ _
      have hm : mergeSize = 10 := rfl
      apply ih
      · simp only [List.length_append, hd, List.length_singleton]; omega
      · intro s hm'
        rcases List.mem_append.mp hm' with hm1 | hm2
        · exact hs s (List.drop_subset _ _ hm1)
        · rcases List.mem_singleton.mp hm2 with rfl
          exact mergeAll_sorted nf _ (fun t ht => hs t (List.take_subset _ _ ht))
    · rw [mergeRoundsAux, if_neg hc]
      exact hs

theorem mergeRounds_len (nf : Bool) (ts : List (List Line)) :
    (mergeRounds nf ts).length ≤ mergeSize :=
  mergeRoundsAux_len _ ts (Nat.le_refl _)

theorem mergeRounds_ne_nil (nf : Bool) (ts : List (List Line)) (hne : ts ≠ []) :
    mergeRounds nf ts ≠ [] :=
  mergeRoundsAux_ne_nil _ ts hne (Nat.le_refl _)

theorem mergeRounds_flat_perm (nf : Bool) (ts : List (List Line)) :
    List.Perm (flatL (mergeRounds nf ts)) (flatL ts) :=
  mergeRoundsAux_flat_perm _ ts (Nat.le_refl _)

theorem mergeRounds_sorted (nf : Bool) (ts : List (List Line))
    (hs : ∀ s ∈ ts, List.Sorted (lineLE nf) s) :
    ∀ s ∈ mergeRounds nf ts, List.Sorted (lineLE nf) s :=
  mergeRoundsAux_sorted _ ts (Nat.le_refl _) hs

end ExtSort

namespace ExtSort

theorem sortGo_sorted (nf : Bool) (c : List Line) :
    List.Sorted (lineLE nf) (sortGo nf c) :=
  List.sorted_insertionSort (lineLE nf) c

theorem sortGo_perm (nf : Bool) (c : List Line) :
    List.Perm (sortGo nf c) c :=
  List.perm_insertionSort (lineLE nf) c

theorem sortGo_length (nf : Bool) (c : List Line) :
    (sortGo nf c).length = c.length :=
  (sortGo_perm nf c).length_eq

theorem chunksAux_nil (nf : Bool) (sz : Nat) : ∀ f, chunksAux nf sz f [] = []
  | 0 => rfl
  | _ + 1 => rfl

theorem chunksAux_flat_perm {nf : Bool} {sz : Nat} (hsz : 0 < sz) :
    ∀ (f : Nat) (ls : List Str), ls.length ≤ f →
    List.Perm (flatL (chunksAux nf sz f ls)) (ls.map (makeLine nf)) := by
  intro f
  induction f with
  | zero =>
    intro ls hlen
    have : ls = [] := List.length_eq_zero.mp (Nat.le_zero.mp hlen)
    subst this
    simp [chunksAux, flatL]
  | succ f ih =>
    intro ls hlen
    cases ls with
    | nil => simp [chunksAux, flatL]
    | cons l ls' =>
      rw [chunksAux]
      have hdl : ((l :: ls').drop sz).length ≤ f := by
        have hdrop := List.length_drop sz (l :: ls')
        simp only [List.length_cons] at hlen hdrop
        omega
      have ihd := ih _ hdl
      have hhead : List.Perm (sortGo nf (((l :: ls').take sz).map (makeLine nf)))
          (((l :: ls').take sz).map (makeLine nf)) := sortGo_perm nf _
      have : List.Perm (flatL (sortGo nf (((l :: ls').take sz).map (makeLine nf)) ::
          chunksAux nf sz f ((l :: ls').drop sz)))
          (((l :: ls').take sz).map (makeLine nf) ++ ((l :: ls').drop sz).map (makeLine nf)) := by
        show List.Perm (sortGo nf (((l :: ls').take sz).map (makeLine nf)) ++
          flatL (chunksAux nf sz f ((l :: ls').drop sz))) _
        exact hhead.append ihd
      refine this.trans ?_
      rw [← List.map_append, List.take_append_drop]

theorem chunksAux_sorted {nf : Bool} {sz : Nat} :
    ∀ (f : Nat) (ls : List Str) (c : List Line), c ∈ chunksAux nf sz f ls →
    List.Sorted (lineLE nf) c := by
  intro f
  induction f with
  | zero => intro ls c hc; simp [chunksAux] at hc
  | succ f ih =>
    intro ls c hc
    cases ls with
    | nil => simp [chunksAux] at hc
    | cons l ls' =>
      rw [chunksAux] at hc
      rcases List.mem_cons.mp hc with rfl | hc'
      · exact sortGo_sorted nf _
      · exact ih _ _ hc'

theorem chunks_small {nf : Bool} {sz : Nat} {ls : List Str} (hne : ls ≠ [])
    (hlt : ls.length < sz) : chunks nf sz ls = [sortGo nf (ls.map (makeLine nf))] := by
  cases ls with
  | nil => exact absurd rfl hne
  | cons l ls' =>
    rw [chunks, List.length_cons, chunksAux]
    have htake : (l :: ls').take sz = l :: ls' :=
      List.take_of_length_le (Nat.le_of_lt hlt)
    have hdrop : (l :: ls').drop sz = [] :=
      List.drop_eq_nil_of_le (Nat.le_of_lt hlt)
    rw [htake, hdrop, chunksAux_nil]

theorem chunks_head_full {nf : Bool} {sz : Nat} {ls : List Str} (hsz : 0 < sz)
    (hge : sz ≤ ls.length) : ∃ rest, chunks nf sz ls =
      sortGo nf ((ls.take sz).map (makeLine nf)) :: rest ∧
      (sortGo nf ((ls.take sz).map (makeLine nf))).length = sz := by
  cases ls with
  | nil => simp at hge; omega
  | cons l ls' =>
    rw [chunks, List.length_cons, chunksAux]
    refine ⟨_, rfl, ?_⟩
    rw [sortGo_length, List.length_map, List.length_take]
    exact Nat.min_eq_left hge

theorem spillLoop_append {sz : Nat} : ∀ (cs tmps : List (List Line)), tmps ≠ [] →
    spillLoop sz cs tmps = (none, tmps ++ cs) := by
  intro cs
  induction cs with
  | nil => intro tmps _; simp [spillLoop]
  | cons c rest ih =>
    intro tmps hne
    rw [spillLoop]
    have : tmps.isEmpty = false := by
      cases tmps with
      | nil => exact absurd rfl hne
      | cons t ts => rfl
    rw [this, Bool.and_false, if_neg (by simp)]
    rw [ih (tmps ++ [c]) (by simp)]
    simp

theorem spillLoop_start_full {sz : Nat} {c : List Line} {rest : List (List Line)}
    (hc : ¬ c.length < sz) : spillLoop sz (c :: rest) [] = (none, c :: rest) := by
  rw [spillLoop]
  have : decide (c.length < sz) = false := by simpa using hc
  rw [this, Bool.false_and, if_neg (by simp)]
  simp only [List.nil_append]
  rw [spillLoop_append rest [c] (by simp)]
  simp

theorem spillLoop_start_small {sz : Nat} {c : List Line} {rest : List (List Line)}
    (hc : c.length < sz) : spillLoop sz (c :: rest) [] = (some c, []) := by
  rw [spillLoop]
  have : decide (c.length < sz) = true := by simpa using hc
  rw [this, List.isEmpty_nil, Bool.and_true, if_pos rfl]

end ExtSort

namespace ExtSort

theorem chunkSize_pos : 0 < chunkSize := by decide

theorem mergeSortRun_perm (nf : Bool) (input : List Str) :
    List.Perm (mergeSortRun nf input).1 (input.map (makeLine nf)) := by
  by_cases hnil : input = []
  · subst hnil
    simp [mergeSortRun, chunks, chunksAux, spillLoop]
  · by_cases hlt : input.length < chunkSize
    · have hc : (sortGo nf (input.map (makeLine nf))).length < chunkSize := by
        rw [sortGo_length, List.length_map]; exact hlt
      rw [mergeSortRun, chunks_small hnil hlt, spillLoop_start_small hc]
      exact sortGo_perm nf _
    · obtain ⟨rest, hchunks, hclen⟩ := chunks_head_full chunkSize_pos (Nat.le_of_not_lt hlt)
      rw [mergeSortRun, hchunks,
        spillLoop_start_full (by rw [hclen]; exact Nat.lt_irrefl _)]
      simp only [List.isEmpty_cons, Bool.false_eq_true, if_false]
      rw [← hchunks]
      have h1 := (mergeAll_perm nf (mergeRounds nf (chunks nf chunkSize input))).symm
      have h2 := mergeRounds_flat_perm nf (chunks nf chunkSize input)
      have h3 := @chunksAux_flat_perm nf chunkSize chunkSize_pos input.length input
        (Nat.le_refl _)
      exact (h1.trans h2).trans h3

theorem mergeSortRun_sorted (nf : Bool) (input : List Str) :
    List.Sorted (lineLE nf) (mergeSortRun nf input).1 := by
  by_cases hnil : input = []
  · subst hnil
    simp [mergeSortRun, chunks, chunksAux, spillLoop, List.Sorted]
  · by_cases hlt : input.length < chunkSize
    · have hc : (sortGo nf (input.map (makeLine nf))).length < chunkSize := by
        rw [sortGo_length, List.length_map]; exact hlt
      rw [mergeSortRun, chunks_small hnil hlt, spillLoop_start_small hc]
      exact sortGo_sorted nf _
    · obtain ⟨rest, hchunks, hclen⟩ := chunks_head_full chunkSize_pos (Nat.le_of_not_lt hlt)
      rw [mergeSortRun, hchunks,
        spillLoop_start_full (by rw [hclen]; exact Nat.lt_irrefl _)]
      simp only [List.isEmpty_cons, Bool.false_eq_true, if_false]
      rw [← hchunks]
      apply mergeAll_sorted
      apply mergeRounds_sorted
      intro s hs
      exact chunksAux_sorted input.length input s hs

theorem mergeSortRun_length (nf : Bool) (input : List Str) :
    (mergeSortRun nf input).1.length = input.length := by
  have h := (mergeSortRun_perm nf input).length_eq
  rwa [List.length_map] at h

/-- The single-chunk special case of `mergeSort` (src/unnamed/part_003:40-47):
when the whole input fits in less than one full chunk, the sorted chunk is
written straight to standard output and no temporary file is created. -/
theorem mergeSortRun_single (nf : Bool) (input : List Str)
    (hlt : input.length < chunkSize) :
    mergeSortRun nf input = (sortGo nf (input.map (makeLine nf)), 0) := by
  by_cases hnil : input = []
  · subst hnil
    simp [mergeSortRun, chunks, chunksAux, spillLoop, sortGo, List.insertionSort]
  · have hc : (sortGo nf (input.map (makeLine nf))).length < chunkSize := by
      rw [sortGo_length, List.length_map]; exact hlt
    rw [mergeSortRun, chunks_small hnil hlt, spillLoop_start_small hc]

end ExtSort

namespace ExtSort

/-- Drop one trailing carriage return (the `"\r\n"` handling of
`bufio.ReadLine`). -/
def stripCR (s : List Nat) : List Nat :=
  if s.getLast? = some 13 then s.dropLast else s

/-- Index of the first newline byte, unbounded. -/
def idx10 : List Nat → Option Nat
  | [] => none
  | b :: bs => if b = 10 then some 0 else (idx10 bs).map (· + 1)

/-- Index of the first newline byte among the first `bnd` bytes. -/
def findNl : Nat → List Nat → Option Nat
  | _, [] => none
  | 0, _ :: _ => none
  | bnd + 1, b :: bs => if b = 10 then some 0 else (findNl bnd bs).map (· + 1)

/-- One `in.ReadLine()` call of `bufio.Reader` with its default 4096-byte
buffer, on the remaining input bytes. Result: the returned line, the
continuation flag (`isPrefix`: the buffer filled before a newline was
found), the error flag (end of input with nothing read), and the
remaining bytes. A line terminated by a newline loses one trailing
carriage return; the carriage-return-at-buffer-boundary special case of
`bufio` is not modelled (no claim touches it). -/
def readLine (bs : List Nat) : List Nat × Bool × Bool × List Nat :=
  match bs with
  | [] => ([], false, true, [])
  | _ :: _ =>
    match findNl bufSize bs with
    | some i => (stripCR (bs.take i), false, false, bs.drop (i + 1))
    | none =>
      if bs.length < bufSize then (bs, false, false, [])
      else (bs.take bufSize, true, false, bs.drop bufSize)

/-- The inner loop of `readLines` (src/unnamed/part_003:274-276),
literally: `for prefix && err != nil { _, prefix, err = in.ReadLine() }`.
State is the continuation flag, the error flag and the remaining bytes. -/
def skipLongAux : Nat → Bool → Bool → List Nat → Bool × Bool × List Nat
  | 0, pfx, er, bs => (pfx, er, bs)
  | fuel + 1, pfx, er, bs =>
    if pfx && er then
      let r := readLine bs
      skipLongAux fuel r.2.1 r.2.2.1 r.2.2.2
    else (pfx, er, bs)

/-- The read loop of `readLines` (src/unnamed/part_003:269-285): read a
line; on a continuation fragment report one `truncating long line` error
(a `Unit` in the error list) and run the skip loop; on an error stop
(end of input is silent); otherwise send the line. -/
def readLinesAux : Nat → List Nat → List (List Nat) × List Unit
  | 0, _ => ([], [])
  | fuel + 1, bs =>
    let r := readLine bs
    if r.2.1 then
      let sk := skipLongAux (r.2.2.2.length + 1) r.2.1 r.2.2.1 r.2.2.2
      if sk.2.1 then ([], [()])
      else
        let rest := readLinesAux fuel sk.2.2
        (r.1 :: rest.1, () :: rest.2)
    else if r.2.2.1 then ([], [])
    else
      let rest := readLinesAux fuel r.2.2.2
      (r.1 :: rest.1, rest.2)

/-- `readLines` (src/unnamed/part_003:257-286) on one input stream:
the lines sent on the line channel and the errors sent on the error
channel. -/
def readLinesGo (bs : List Nat) : List (List Nat) × List Unit :=
  readLinesAux (bs.length + 1) bs

/-- The same loop written without the skip loop: every line `ReadLine`
returns, fragment or not, is sent; each fragment adds one error. -/
def readLinesNoSkipAux : Nat → List Nat → List (List Nat) × List Unit
  | 0, _ => ([], [])
  | fuel + 1, bs =>
    let r := readLine bs
    if r.2.1 then
      let rest := readLinesNoSkipAux fuel r.2.2.2
      (r.1 :: rest.1, () :: rest.2)
    else if r.2.2.1 then ([], [])
    else
      let rest := readLinesNoSkipAux fuel r.2.2.2
      (r.1 :: rest.1, rest.2)

/-- Wrapper of `readLinesNoSkipAux` with sufficient fuel. -/
def readLinesNoSkip (bs : List Nat) : List (List Nat) × List Unit :=
  readLinesNoSkipAux (bs.length + 1) bs

/-- Reference notion: the raw newline-separated segments of a byte
stream (no trailing empty segment for a final newline, no stripping). -/
def rawSegsAux : Nat → List Nat → List (List Nat)
  | 0, _ => []
  | _ + 1, [] => []
  | fuel + 1, bs =>
    match idx10 bs with
    | some i => bs.take i :: rawSegsAux fuel (bs.drop (i + 1))
    | none => [bs]

/-- The raw newline-separated segments of a byte stream. -/
def rawSegs (bs : List Nat) : List (List Nat) := rawSegsAux bs.length bs

/-- Reference notion: the logical lines of a byte stream — the raw
segments, with one trailing carriage return removed from each
newline-terminated segment. -/
def linesOfAux : Nat → List Nat → List (List Nat)
  | 0, _ => []
  | _ + 1, [] => []
  | fuel + 1, bs =>
    match idx10 bs with
    | some i => stripCR (bs.take i) :: linesOfAux fuel (bs.drop (i + 1))
    | none => [bs]

/-- The logical lines of a byte stream. -/
def linesOf (bs : List Nat) : List (List Nat) := linesOfAux bs.length bs

/-- Generic concatenation. -/
def catL {α : Type} : List (List α) → List α
  | [] => []
  | s :: ss => s ++ catL ss

/-- The whole program on the contents of its input streams
(`readAllLines` feeding `mergeSort`, src/unnamed/part_003:243-255 and
36-81), error-free on the file system: the lines written to standard
output, the number of temporary files created, and the errors reported
to the error channel (here: the long-line warnings of the reader). -/
def programRun (nf : Bool) (files : List (List Nat)) : List Line × Nat × List Unit :=
  let rd := files.map readLinesGo
  let ls := catL (rd.map Prod.fst)
  let es := catL (rd.map Prod.snd)
  let r := mergeSortRun nf ls
  (r.1, r.2, es)

/-- The status loop of `main` (src/unnamed/part_003:28-33): `status`
starts at 0 and is set to 1 for every error received from the error
channel; the process exits with the final value. -/
def mainLoop (es : List Unit) : Nat := es.foldl (fun _ _ => 1) 0

/-- Exit status of the program on the given input streams. -/
def programStatus (nf : Bool) (files : List (List Nat)) : Nat :=
  mainLoop (programRun nf files).2.2

/-- Temporary-file bookkeeping state of `mergeSort`
(src/unnamed/part_003:36-81): the `tmps` slice (file names still listed),
all names ever created, all names removed, and the next fresh name. -/
structure FS where
  tmps : List Nat
  created : List Nat
  removed : List Nat
  nxt : Nat
deriving DecidableEq, Repr

/-- File effect of the merge-round loop (src/unnamed/part_003:56-69),
with a write-failure oracle `failW`: round `r` creates one temporary
file; `merge` removes each source file when its reads reach end of file,
so a successful round removes all `mergeSize` sources, while a round
whose first destination write fails removes none of them. In both cases
the code replaces `tmps` by `tmps[mergeSize:]` plus the new name before
checking the error, and a failed round breaks out of the loop. -/
def roundsFSAux (failW : Nat → Bool) : Nat → Nat → FS → FS
  | 0, _, fs => fs
  | fuel + 1, round, fs =>
    if mergeSize < fs.tmps.length then
      let fl := failW round
      let fs' : FS :=
        { tmps := fs.tmps.drop mergeSize ++ [fs.nxt]
          created := fs.created ++ [fs.nxt]
          removed := fs.removed ++ (if fl then [] else fs.tmps.take mergeSize)
          nxt := fs.nxt + 1 }
      if fl then fs' else roundsFSAux failW fuel (round + 1) fs'
    else fs

/-- Temporary-file effect of a whole `mergeSort` run that spilled `n`
chunk files (src/unnamed/part_003:48-79): the round loop runs (with the
failure oracle), then the final merge and the cleanup loop
`for _, t := range tmps { os.Remove(t) }` remove everything still listed
in `tmps` — and only that. -/
def mergeSortFS (n : Nat) (failW : Nat → Bool) : FS :=
  let fs0 : FS := { tmps := List.range n, created := List.range n, removed := [], nxt := n }
  let fs1 := roundsFSAux failW n 0 fs0
  { fs1 with removed := fs1.removed ++ fs1.tmps }

/-- A lexicographic-mode input whose single physical first line is one
byte longer than the reader buffer, followed by the lines `a` and `b`. -/
def longInput : List Nat := List.replicate (bufSize + 1) 97 ++ [10, 98, 10]

end ExtSort

namespace ExtSort

theorem readLine_pfx_no_err (bs : List Nat) (h : (readLine bs).2.1 = true) :
    (readLine bs).2.2.1 = false := by
  cases bs with
  | nil => simp [readLine] at h
  | cons b bs' =>
    rcases hf : findNl bufSize (b :: bs') with _ | i
    · by_cases hl : (b :: bs').length < bufSize
      · simp only [List.length_cons] at hl
        simp [readLine, hf, hl] at h
      · simp only [List.length_cons] at hl
        simp [readLine, hf, hl]
    · simp [readLine, hf] at h

theorem readLine_consume {bs : List Nat} (h : bs ≠ []) :
    (readLine bs).2.2.2.length < bs.length := by
  cases bs with
  | nil => exact absurd rfl h
  | cons b bs' =>
    rcases hf : findNl bufSize (b :: bs') with _ | i
    · by_cases hl : (b :: bs').length < bufSize
      · simp only [List.length_cons] at hl
        simp [readLine, hf, hl]
      · have hpos : 0 < bufSize := by decide
        simp only [readLine, hf]
        rw [if_neg hl]
        rw [List.length_drop]
        simp only [List.length_cons] at hl ⊢
        omega
    · simp only [readLine, hf]
      rw [List.length_drop]
      simp only [List.length_cons]
      omega

theorem skipLongAux_id : ∀ (f : Nat) (p : Bool) (bs : List Nat),
    skipLongAux f p false bs = (p, false, bs)
  | 0, _, _ => rfl
  | _ + 1, p, bs => by simp [skipLongAux]

theorem readLinesAux_nil : ∀ f : Nat, readLinesAux f [] = ([], [])
  | 0 => rfl
  | _ + 1 => by simp [readLinesAux, readLine]

theorem readLinesAux_eq_noskip : ∀ (f : Nat) (bs : List Nat),
    readLinesAux f bs = readLinesNoSkipAux f bs := by
  intro f
  induction f with
  | zero => intro bs; rfl
  | succ f ih =>
    intro bs
    rcases hr : readLine bs with ⟨l, p, e, bs2⟩
    have hpe : p = true → e = false := by
      intro hp
      have hh := readLine_pfx_no_err bs
      rw [hr] at hh
      exact hh hp
    cases p with
    | true =>
      have he : e = false := hpe rfl
      subst he
      simp only [readLinesAux, readLinesNoSkipAux, hr, skipLongAux_id]
      simp [ih]
    | false =>
      cases e with
      | true => simp [readLinesAux, readLinesNoSkipAux, hr]
      | false => simp [readLinesAux, readLinesNoSkipAux, hr, ih]

/-- The skip loop of `readLines` never runs: its guard needs a non-nil
error right after a continuation read, but `ReadLine` never reports both.
So `readLines` behaves exactly like the loop with no fragment skipping:
every fragment of an overlong line is sent as a line of its own. -/
theorem readLinesGo_eq_noskip (bs : List Nat) :
    readLinesGo bs = readLinesNoSkip bs :=
  readLinesAux_eq_noskip _ bs

theorem readLinesAux_irrel : ∀ (f g : Nat) (bs : List Nat),
    bs.length < f → bs.length < g → readLinesAux f bs = readLinesAux g bs := by
  intro f
  induction f with
  | zero => intro g bs hf _; omega
  | succ f ih =>
    intro g bs hf hg
    cases g with
    | zero => omega
    | succ g =>
      by_cases hbs : bs = []
      · subst hbs
        rw [readLinesAux_nil, readLinesAux_nil]
      · have hc : (readLine bs).2.2.2.length < bs.length := readLine_consume hbs
        rcases hr : readLine bs with ⟨l, p, e, bs2⟩
        rw [hr] at hc
        simp only at hc
        have hpe : p = true → e = false := by
          intro hp
          have hh := readLine_pfx_no_err bs
          rw [hr] at hh
          exact hh hp
        cases p with
        | true =>
          have he : e = false := hpe rfl
          subst he
          simp only [readLinesAux, hr, skipLongAux_id]
          have : readLinesAux f bs2 = readLinesAux g bs2 := by
            apply ih <;> omega
          simp [this]
        | false =>
          cases e with
          | true => simp [readLinesAux, hr]
          | false =>
            simp only [readLinesAux, hr]
            have : readLinesAux f bs2 = readLinesAux g bs2 := by
              apply ih <;> omega
            simp [this]

end ExtSort

namespace ExtSort

theorem idx10_some_lt : ∀ {bs : List Nat} {i : Nat}, idx10 bs = some i → i < bs.length := by
  intro bs
  induction bs with
  | nil => intro i h; simp [idx10] at h
  | cons b bs ih =>
    intro i h
    simp only [idx10] at h
    by_cases hb : b = 10
    · rw [if_pos hb] at h
      simp only [Option.some.injEq] at h
      simp only [List.length_cons]
      omega
    · rw [if_neg hb] at h
      rcases hx : idx10 bs with _ | j
      · rw [hx] at h
        simp at h
      · rw [hx] at h
        simp only [Option.map_some', Option.some.injEq] at h
        have := ih hx
        simp only [List.length_cons]
        omega

theorem findNl_of_idx10 : ∀ {bs : List Nat} {i B : Nat}, idx10 bs = some i →
    i < B → findNl B bs = some i := by
  intro bs
  induction bs with
  | nil => intro i B h _; simp [idx10] at h
  | cons b bs ih =>
    intro i B h hiB
    cases B with
    | zero => omega
    | succ B =>
      simp only [idx10] at h
      by_cases hb : b = 10
      · rw [if_pos hb] at h
        simp only [Option.some.injEq] at h
        rw [findNl, if_pos hb, h]
      · rw [if_neg hb] at h
        rcases hx : idx10 bs with _ | j
        · rw [hx] at h
          simp at h
        · rw [hx] at h
          simp only [Option.map_some', Option.some.injEq] at h
          rw [findNl, if_neg hb, ih hx (by omega)]
          simp [h]

theorem findNl_none_of_idx10_none : ∀ (B : Nat) {bs : List Nat}, idx10 bs = none →
    findNl B bs = none := by
  intro B
  induction B with
  | zero =>
    intro bs _
    cases bs <;> rfl
  | succ B ih =>
    intro bs h
    cases bs with
    | nil => rfl
    | cons b bs =>
      simp only [idx10] at h
      by_cases hb : b = 10
      · rw [if_pos hb] at h
        simp at h
      · rw [if_neg hb] at h
        rw [findNl, if_neg hb]
        rcases hx : idx10 bs with _ | j
        · rw [ih hx]
          rfl
        · rw [hx] at h
          simp at h

theorem findNl_none_of_far : ∀ {bs : List Nat} {i B : Nat}, idx10 bs = some i →
    B ≤ i → findNl B bs = none := by
  intro bs
  induction bs with
  | nil => intro i B h _; simp [idx10] at h
  | cons b bs ih =>
    intro i B h hBi
    cases B with
    | zero => cases bs <;> rfl
    | succ B =>
      simp only [idx10] at h
      by_cases hb : b = 10
      · rw [if_pos hb] at h
        simp only [Option.some.injEq] at h
        omega
      · rw [if_neg hb] at h
        rcases hx : idx10 bs with _ | j
        · rw [hx] at h
          simp at h
        · rw [hx] at h
          simp only [Option.map_some', Option.some.injEq] at h
          rw [findNl, if_neg hb, ih hx (by omega)]
          rfl

theorem rawSegsAux_irrel : ∀ (f g : Nat) (bs : List Nat), bs.length ≤ f →
    bs.length ≤ g → rawSegsAux f bs = rawSegsAux g bs := by
  intro f
  induction f with
  | zero =>
    intro g bs hf _
    have : bs = [] := List.length_eq_zero.mp (Nat.le_zero.mp hf)
    subst this
    cases g <;> rfl
  | succ f ih =>
    intro g bs hf hg
    cases g with
    | zero =>
      have : bs = [] := List.length_eq_zero.mp (Nat.le_zero.mp hg)
      subst this
      rfl
    | succ g =>
      cases bs with
      | nil => rfl
      | cons b bs' =>
        simp only [rawSegsAux]
        rcases hx : idx10 (b :: bs') with _ | i
        · rfl
        · dsimp only
          have hi : i < (b :: bs').length := idx10_some_lt hx
          simp only [List.length_cons] at hf hg hi
          rw [ih g ((b :: bs').drop (i + 1))
            (by rw [List.length_drop]; simp only [List.length_cons]; omega)
            (by rw [List.length_drop]; simp only [List.length_cons]; omega)]

theorem linesOfAux_irrel : ∀ (f g : Nat) (bs : List Nat), bs.length ≤ f →
    bs.length ≤ g → linesOfAux f bs = linesOfAux g bs := by
  intro f
  induction f with
  | zero =>
    intro g bs hf _
    have : bs = [] := List.length_eq_zero.mp (Nat.le_zero.mp hf)
    subst this
    cases g <;> rfl
  | succ f ih =>
    intro g bs hf hg
    cases g with
    | zero =>
      have : bs = [] := List.length_eq_zero.mp (Nat.le_zero.mp hg)
      subst this
      rfl
    | succ g =>
      cases bs with
      | nil => rfl
      | cons b bs' =>
        simp only [linesOfAux]
        rcases hx : idx10 (b :: bs') with _ | i
        · rfl
        · dsimp only
          have hi : i < (b :: bs').length := idx10_some_lt hx
          simp only [List.length_cons] at hf hg hi
          rw [ih g ((b :: bs').drop (i + 1))
            (by rw [List.length_drop]; simp only [List.length_cons]; omega)
            (by rw [List.length_drop]; simp only [List.length_cons]; omega)]

theorem rawSegs_eq_some {bs : List Nat} {i : Nat} (h : idx10 bs = some i) :
    rawSegs bs = bs.take i :: rawSegs (bs.drop (i + 1)) := by
  cases bs with
  | nil => simp [idx10] at h
  | cons b bs' =>
    have hi : i < (b :: bs').length := idx10_some_lt h
    simp only [rawSegs, List.length_cons, rawSegsAux, h]
    rw [rawSegsAux_irrel bs'.length ((b :: bs').drop (i + 1)).length ((b :: bs').drop (i + 1))
      (by rw [List.length_drop]; simp only [List.length_cons] at hi ⊢; omega)
      (Nat.le_refl _)]

theorem rawSegs_eq_none {bs : List Nat} (hne : bs ≠ []) (h : idx10 bs = none) :
    rawSegs bs = [bs] := by
  cases bs with
  | nil => exact absurd rfl hne
  | cons b bs' => simp [rawSegs, rawSegsAux, h]

theorem linesOf_eq_some {bs : List Nat} {i : Nat} (h : idx10 bs = some i) :
    linesOf bs = stripCR (bs.take i) :: linesOf (bs.drop (i + 1)) := by
  cases bs with
  | nil => simp [idx10] at h
  | cons b bs' =>
    have hi : i < (b :: bs').length := idx10_some_lt h
    simp only [linesOf, List.length_cons, linesOfAux, h]
    rw [linesOfAux_irrel bs'.length ((b :: bs').drop (i + 1)).length ((b :: bs').drop (i + 1))
      (by rw [List.length_drop]; simp only [List.length_cons] at hi ⊢; omega)
      (Nat.le_refl _)]

theorem linesOf_eq_none {bs : List Nat} (hne : bs ≠ []) (h : idx10 bs = none) :
    linesOf bs = [bs] := by
  cases bs with
  | nil => exact absurd rfl hne
  | cons b bs' => simp [linesOf, linesOfAux, h]

theorem readLinesAux_linesOf : ∀ (f : Nat) (bs : List Nat), bs.length < f →
    (∀ s ∈ rawSegs bs, s.length < bufSize) → readLinesAux f bs = (linesOf bs, []) := by
  intro f
  induction f with
  | zero => intro bs hlen _; omega
  | succ f ih =>
    intro bs hlen hseg
    by_cases hbs : bs = []
    · subst hbs
      rw [readLinesAux_nil]
      simp [linesOf, linesOfAux]
    · rcases hx : idx10 bs with _ | i
      · have hseg1 : bs.length < bufSize := by
          rw [rawSegs_eq_none hbs hx] at hseg
          exact hseg bs (List.mem_singleton.mpr rfl)
        have hfind := findNl_none_of_idx10_none bufSize hx
        have hr : readLine bs = (bs, false, false, []) := by
          cases bs with
          | nil => exact absurd rfl hbs
          | cons b bs' =>
            simp only [readLine, hfind]
            rw [if_pos hseg1]
        simp only [readLinesAux, hr]
        simp [readLinesAux_nil, linesOf_eq_none hbs hx]
      · have hilen : i < bs.length := idx10_some_lt hx
        have hseghead : bs.take i ∈ rawSegs bs := by
          rw [rawSegs_eq_some hx]
          exact List.mem_cons_self _ _
        have hilt : i < bufSize := by
          have hh := hseg _ hseghead
          rwa [List.length_take, Nat.min_eq_left (Nat.le_of_lt hilen)] at hh
        have hfind := findNl_of_idx10 hx hilt
        have hr : readLine bs = (stripCR (bs.take i), false, false, bs.drop (i + 1)) := by
          cases bs with
          | nil => exact absurd rfl hbs
          | cons b bs' => simp [readLine, hfind]
        simp only [readLinesAux, hr]
        have hrec := ih (bs.drop (i + 1)) (by rw [List.length_drop]; omega)
          (by
            intro s hs
            apply hseg
            rw [rawSegs_eq_some hx]
            exact List.mem_cons_of_mem _ hs)
        simp only [hrec]
        simp [linesOf_eq_some hx]

/-- `readLines` on a stream whose raw lines all fit the reader buffer:
exactly the logical lines, in order, with no error. -/
theorem readLinesGo_linesOf (bs : List Nat)
    (h : ∀ s ∈ rawSegs bs, s.length < bufSize) :
    readLinesGo bs = (linesOf bs, []) :=
  readLinesAux_linesOf _ bs (Nat.lt_succ_self _) h

end ExtSort

namespace ExtSort

theorem idx10_replicate97 : ∀ (n : Nat) (r : List Nat),
    idx10 (List.replicate n 97 ++ 10 :: r) = some n := by
  intro n
  induction n with
  | zero => intro r; simp [idx10]
  | succ n ih =>
    intro r
    rw [List.replicate_succ, List.cons_append, idx10]
    simp [ih]

theorem longInput_length : longInput.length = bufSize + 4 := by
  simp [longInput, List.length_append, List.length_replicate]

theorem idx10_longInput : idx10 longInput = some (bufSize + 1) := by
  rw [show longInput = List.replicate (bufSize + 1) 97 ++ 10 :: [98, 10] from rfl]
  exact idx10_replicate97 (bufSize + 1) [98, 10]

theorem readLine_longInput :
    readLine longInput = (List.replicate bufSize 97, true, false, [97, 10, 98, 10]) := by
  have hfind : findNl bufSize longInput = none :=
    findNl_none_of_far idx10_longInput (by omega)
  have hlenL : longInput.length = bufSize + 4 := longInput_length
  have htake : longInput.take bufSize = List.replicate bufSize 97 := by
    rw [longInput, List.take_append_of_le_length (by rw [List.length_replicate]; omega)]
    rw [List.take_replicate, Nat.min_eq_left (by omega)]
  have hdrop : longInput.drop bufSize = [97, 10, 98, 10] := by
    rw [longInput, List.drop_append_of_le_length (by rw [List.length_replicate]; omega)]
    rw [List.drop_replicate]
    rw [show bufSize + 1 - bufSize = 1 from by omega]
    rfl
  obtain ⟨b, bs', hL⟩ : ∃ b bs', longInput = b :: bs' := by
    cases hc : longInput with
    | nil =>
      have := longInput_length
      rw [hc] at this
      simp at this
    | cons b bs' => exact ⟨b, bs', rfl⟩
  rw [hL] at hfind hlenL htake hdrop ⊢
  simp only [readLine, hfind]
  rw [if_neg (by simp only [List.length_cons] at hlenL ⊢; omega)]
  rw [htake, hdrop]

theorem readLinesGo_longInput :
    readLinesGo longInput = ([List.replicate bufSize 97, [97], [98]], [()]) := by
  have hb4 : (0 : Nat) < bufSize := by decide
  have hrest : readLinesAux (bufSize + 4) [97, 10, 98, 10] = ([[97], [98]], []) := by
    rw [readLinesAux_irrel (bufSize + 4) 5 [97, 10, 98, 10]
      (by simp only [List.length_cons, List.length_nil]; omega)
      (by simp only [List.length_cons, List.length_nil]; omega)]
    decide
  have hstep : readLinesAux (bufSize + 4 + 1) longInput =
      (List.replicate bufSize 97 :: ([[97], [98]] : List (List Nat)), ([()] : List Unit)) := by
    rw [show bufSize + 4 + 1 = (bufSize + 4) + 1 from rfl]
    rw [readLinesAux, readLine_longInput]
    simp [skipLongAux_id, hrest]
  rw [readLinesGo, longInput_length]
  exact hstep

theorem makeLine_str (nf : Bool) (s : Str) : (makeLine nf s).str = s := by
  cases nf with
  | false => rfl
  | true =>
    rcases h : sscanfInt s with _ | v <;> simp [makeLine, h]

theorem catL_length {α : Type} : ∀ ll : List (List α),
    (catL ll).length = (ll.map List.length).sum
  | [] => rfl
  | s :: ss => by simp [catL, catL_length ss]

end ExtSort

namespace ExtSort

theorem foldl_one : ∀ es : List Unit, es.foldl (fun _ _ => (1 : Nat)) 1 = 1
  | [] => rfl
  | _ :: es => foldl_one es

theorem mainLoop_eq : ∀ es : List Unit, mainLoop es = if es.isEmpty then 0 else 1
  | [] => rfl
  | _ :: es => by simp [mainLoop, List.foldl_cons, foldl_one es]

end ExtSort

namespace ExtSort

/-- C2: for every input in which no raw line reaches the maximum line
length (the 4096-byte reader buffer), the number of lines written to
standard output equals the total number of logical lines of the inputs. -/
theorem c2_line_count (nf : Bool) (files : List (List Nat))
    (h : ∀ f ∈ files, ∀ s ∈ rawSegs f, s.length < bufSize) :
    (programRun nf files).1.length = (files.map (fun f => (linesOf f).length)).sum := by
  simp only [programRun]
  rw [mergeSortRun_length, catL_length]
  rw [List.map_map, List.map_map]
  congr 1
  apply List.map_congr_left
  intro f hf
  simp [Function.comp, readLinesGo_linesOf f (h f hf)]

theorem c2_line_count_witness :
    (∀ f ∈ ([[98, 10, 97, 10]] : List (List Nat)), ∀ s ∈ rawSegs f, s.length < bufSize) ∧
    (programRun false [[98, 10, 97, 10]]).1.length =
      (([[98, 10, 97, 10]] : List (List Nat)).map (fun f => (linesOf f).length)).sum :=
  ⟨by decide, c2_line_count false [[98, 10, 97, 10]] (by decide)⟩

/-- C3: the claim that every temporary file is deleted before exit fails
on the code. In a run that spilled 11 chunk files, when the first merge
round's destination write fails, `mergeSort` has already replaced `tmps`
by `tmps[mergeSize:]` plus the new file before checking the error
(src/unnamed/part_003:62-63), so the 10 source files of the failed round
are no longer listed anywhere: file 0 is created but never removed. -/
theorem c3_merge_failure_leaks_temp_file :
    0 ∈ (mergeSortFS 11 (fun _ => true)).created ∧
    0 ∉ (mergeSortFS 11 (fun _ => true)).removed := by decide

/-- C4 (counterexample): the sentinel is `int(math.MinInt32)`, not the
minimum representable value of the 64-bit key. The line `a` has no
parsable numeric value; the line `-3000000000` parses to a key below the
sentinel, so this numerically-keyed line sorts strictly before the
unparsable one — the unparsable line sorts after it. -/
theorem c4_counterexample :
    sscanfInt [97] = none ∧
    sscanfInt [45, 51, 48, 48, 48, 48, 48, 48, 48, 48, 48] = some (-3000000000) ∧
    Line.less true (makeLine true [45, 51, 48, 48, 48, 48, 48, 48, 48, 48, 48])
      (makeLine true [97]) = true := by decide

/-- C4 (amended): in numeric mode an unparsable line gets the sentinel
key `int(math.MinInt32)` = -2^31; it sorts before every line whose parsed
key exceeds the sentinel, but after any line whose parsed key (the key
type is a 64-bit int) is below the sentinel. -/
theorem c4_sentinel (s t : Str) (v : Int) (hs : sscanfInt s = none)
    (ht : sscanfInt t = some v) :
    (makeLine true s).num = minInt32 ∧
    (minInt32 < v → Line.less true (makeLine true s) (makeLine true t) = true) ∧
    (v < minInt32 → Line.less true (makeLine true t) (makeLine true s) = true) := by
  refine ⟨?_, ?_, ?_⟩ <;> simp [makeLine, hs, ht, Line.less]

theorem c4_sentinel_witness :
    (sscanfInt [97] = none ∧ sscanfInt [49] = some 1) ∧
    ((makeLine true [97]).num = minInt32 ∧
     (minInt32 < 1 → Line.less true (makeLine true [97]) (makeLine true [49]) = true) ∧
     ((1 : Int) < minInt32 → Line.less true (makeLine true [49]) (makeLine true [97]) = true)) :=
  ⟨⟨by decide, by decide⟩, c4_sentinel [97] [49] 1 (by decide) (by decide)⟩

/-- C5 (counterexample): in numeric mode the run on the lines `1b`, `1a`
(equal derived keys) emits `1b` before `1a`, although `1a` is strictly
smaller in the full lexicographic order — so equal-key ties are not
decided by lexicographic comparison of the line text. -/
theorem c5_counterexample :
    (mergeSortRun true [[49, 98], [49, 97]]).1 =
      [{ num := 1, str := [49, 98] }, { num := 1, str := [49, 97] }] ∧
    strLt [49, 97] [49, 98] = true := by decide

/-- C5 (amended): in numeric mode two lines with equal derived keys are
simply unordered by the comparator — `less` is false in both directions
and no tie-break on the text is applied; their relative output order is
whatever the (unstable) sort produces. -/
theorem c5_equal_keys_unordered (a b : Line) (h : a.num = b.num) :
    Line.less true a b = false ∧ Line.less true b a = false := by
  constructor <;> simp [Line.less, h]

theorem c5_equal_keys_unordered_witness :
    ({ num := 1, str := [49, 98] } : Line).num = ({ num := 1, str := [49, 97] } : Line).num ∧
    (Line.less true ⟨1, [49, 98]⟩ ⟨1, [49, 97]⟩ = false ∧
     Line.less true ⟨1, [49, 97]⟩ ⟨1, [49, 98]⟩ = false) :=
  ⟨rfl, c5_equal_keys_unordered ⟨1, [49, 98]⟩ ⟨1, [49, 97]⟩ rfl⟩

/-- C6 (counterexample): on an input whose first physical line is one
byte longer than the reader buffer, followed by the lines `a` and `b`,
the reader emits the overlong line's 4096-byte fragment as a line of its
own (then `a` and `b`), reports one warning, and the fragment — content
of the overlong line — appears in the program's sorted output. -/
theorem c6_counterexample :
    (readLinesGo longInput).1 = [List.replicate bufSize 97, [97], [98]] ∧
    (readLinesGo longInput).2 = [()] ∧
    List.replicate bufSize 97 ∈ (programRun false [longInput]).1.map Line.str := by
  refine ⟨by rw [readLinesGo_longInput], by rw [readLinesGo_longInput], ?_⟩
  simp only [programRun]
  have hls : catL (([longInput].map readLinesGo).map Prod.fst) =
      [List.replicate bufSize 97, [97], [98]] := by
    simp [readLinesGo_longInput, catL]
  rw [hls]
  have hperm := (mergeSortRun_perm false [List.replicate bufSize 97, [97], [98]]).map Line.str
  rw [List.map_map] at hperm
  have hmap : ([List.replicate bufSize 97, [97], [98]] : List Str).map
      (Line.str ∘ makeLine false) = [List.replicate bufSize 97, [97], [98]] := by
    simp [Function.comp, makeLine_str]
  rw [hmap] at hperm
  exact hperm.mem_iff.mpr (List.mem_cons_self _ _)

/-- C6 (amended): a line exceeding the reader buffer produces a
`truncating long line` warning for each continuation read, but the
fragment-skip loop's guard (`prefix && err != nil`) can never hold right
after a continuation read, so the loop never runs: `readLines` behaves
exactly like the same loop with no skipping at all — every fragment of
the overlong physical line is emitted as a separate output line, and
surrounding valid lines are still read, sorted and emitted. -/
theorem c6_fragments_not_skipped (bs : List Nat) :
    readLinesGo bs = readLinesNoSkip bs :=
  readLinesAux_eq_noskip _ bs

/-- C7: the process exits with status 0 exactly when no error of any
kind was recorded on the error channel during the run, and with status 1
exactly when at least one (recoverable or fatal) error was recorded —
the sort output having been produced regardless. -/
theorem c7_exit_status (nf : Bool) (files : List (List Nat)) :
    (programStatus nf files = 0 ↔ (programRun nf files).2.2 = []) ∧
    (programStatus nf files = 1 ↔ (programRun nf files).2.2 ≠ []) := by
  rw [programStatus, mainLoop_eq]
  cases h : (programRun nf files).2.2 with
  | nil => simp
  | cons e es => simp

/-- C8: when the entire input fits in less than one full chunk, the
sorted chunk is written directly to standard output and no temporary
file is created or written during the run. -/
theorem c8_single_chunk (nf : Bool) (input : List Str)
    (h : input.length < chunkSize) :
    mergeSortRun nf input = (sortGo nf (input.map (makeLine nf)), 0) :=
  mergeSortRun_single nf input h

theorem c8_single_chunk_witness :
    (([[98], [97]] : List Str).length < chunkSize) ∧
    mergeSortRun false [[98], [97]] =
      (sortGo false (([[98], [97]] : List Str).map (makeLine false)), 0) :=
  ⟨by decide, c8_single_chunk false [[98], [97]] (by decide)⟩

/-- C9: whenever more than `mergeSize` (10) sorted temporary files are
pending, one round merges exactly the first 10 of them into one new
temporary file appended at the end, strictly decreasing the pending
count (by 9); rounds repeat until at most 10 remain, and at least one
source is left for the final merge to standard output, which
`mergeSortRun` performs on the remaining sources. -/
theorem c9_merge_rounds (nf : Bool) (ts : List (List Line))
    (h : mergeSize < ts.length) :
    (ts.take mergeSize).length = mergeSize ∧
    mergeRounds nf ts =
      mergeRounds nf (ts.drop mergeSize ++ [mergeAll nf (ts.take mergeSize)]) ∧
    (ts.drop mergeSize ++ [mergeAll nf (ts.take mergeSize)]).length = ts.length - 9 ∧
    ts.length - 9 < ts.length ∧
    1 ≤ (mergeRounds nf ts).length ∧ (mergeRounds nf ts).length ≤ mergeSize := by
  have hm : mergeSize = 10 := rfl
  have hlen9 : (ts.drop mergeSize ++ [mergeAll nf (ts.take mergeSize)]).length =
      ts.length - 9 := by
    simp only [List.length_append, List.length_drop, List.length_singleton]
    omega
  refine ⟨?_, ?_, hlen9, by omega, ?_, mergeRounds_len nf ts⟩
  · rw [List.length_take]
    exact Nat.min_eq_left (Nat.le_of_lt h)
  · rw [mergeRounds, mergeRounds]
    cases hk : ts.length with
    | zero => omega
    | succ k =>
      rw [hk] at h
      rw [mergeRoundsAux, if_pos (by rw [hk]; exact h)]
      apply mergeRoundsAux_irrel
      · rw [hlen9, hk]; omega
      · exact Nat.le_refl _
  · apply List.length_pos.mpr
    apply mergeRounds_ne_nil
    intro hnil
    rw [hnil] at h
    simp at h

theorem c9_merge_rounds_witness :
    mergeSize < (List.replicate 11 [(⟨0, []⟩ : Line)]).length ∧
    (((List.replicate 11 [(⟨0, []⟩ : Line)]).take mergeSize).length = mergeSize ∧
     mergeRounds false (List.replicate 11 [(⟨0, []⟩ : Line)]) =
       mergeRounds false ((List.replicate 11 [(⟨0, []⟩ : Line)]).drop mergeSize ++
         [mergeAll false ((List.replicate 11 [(⟨0, []⟩ : Line)]).take mergeSize)]) ∧
     ((List.replicate 11 [(⟨0, []⟩ : Line)]).drop mergeSize ++
       [mergeAll false ((List.replicate 11 [(⟨0, []⟩ : Line)]).take mergeSize)]).length =
       (List.replicate 11 [(⟨0, []⟩ : Line)]).length - 9 ∧
     (List.replicate 11 [(⟨0, []⟩ : Line)]).length - 9 <
       (List.replicate 11 [(⟨0, []⟩ : Line)]).length ∧
     1 ≤ (mergeRounds false (List.replicate 11 [(⟨0, []⟩ : Line)])).length ∧
     (mergeRounds false (List.replicate 11 [(⟨0, []⟩ : Line)])).length ≤ mergeSize) :=
  ⟨by decide, c9_merge_rounds false (List.replicate 11 [⟨0, []⟩]) (by decide)⟩

/-- C10: on empty input (one input stream with no bytes) the program
writes nothing to standard output, creates no temporary file, records no
error, and exits with status 0 — in both comparison modes. -/
theorem c10_empty_input (nf : Bool) :
    programRun nf [[]] = ([], 0, []) ∧ programStatus nf [[]] = 0 := by
  cases nf <;> exact ⟨by decide, by decide⟩

end ExtSort

namespace ExtSort

/-- `writeChunk` serialization (src/unnamed/part_003:118-135), also used
by the destination writes of `merge` (part_003:209): each line is written
as its text followed by one newline byte; a temporary file's content is
the concatenation of its records. -/
def fileBytes (c : List Line) : List Nat :=
  catL (c.map (fun l => l.str ++ [10]))

/-- Reading a spill file back, as `newChunkFile`/`nextLine` do
(src/unnamed/part_003:143-169): repeated `bufio.ReadLine` calls until an
error, the continuation flag ignored (`bytes, _, err := in.ReadLine()`),
each returned byte slice passed to `makeLine`. `ReadLine` strips one
trailing carriage return before the newline and splits a record of
`bufSize` or more bytes into fragments, so this is not in general the
inverse of `fileBytes`. -/
def readChunkFile (nf : Bool) (bytes : List Nat) : List Line :=
  (readLinesNoSkip bytes).1.map (makeLine nf)

/-- `merge(w, paths)` (src/unnamed/part_003:195-219) on the byte
contents of the source files: open each source, read its records back
through `ReadLine` and `makeLine`, and heap-merge the results into the
destination. -/
def mergeAllDisk (nf : Bool) (files : List (List Nat)) : List Line :=
  mergeAll nf (files.map (readChunkFile nf))

/-- The merge-round loop of `mergeSort` (src/unnamed/part_003:56-69) at
the file level: each round merges the first `mergeSize` files and writes
the result — serialized line by line again — to one new temporary file
appended at the end. -/
def mergeRoundsDisk (nf : Bool) : Nat → List (List Nat) → List (List Nat)
  | 0, fs => fs
  | f + 1, fs =>
    if mergeSize < fs.length then
      mergeRoundsDisk nf f
        (fs.drop mergeSize ++ [fileBytes (mergeAllDisk nf (fs.take mergeSize))])
    else fs

/-- `mergeSort` (src/unnamed/part_003:36-81) with the temporary files'
byte contents modelled faithfully: each spilled chunk is serialized by
`writeChunk` and every merge re-reads its sources through `ReadLine`. -/
def mergeSortRunDisk (nf : Bool) (input : List Str) : List Line × Nat :=
  match spillLoop chunkSize (chunks nf chunkSize input) [] with
  | (some c, _) => (c, 0)
  | (none, tmps) =>
    if tmps.isEmpty then ([], 0)
    else
      (mergeAllDisk nf (mergeRoundsDisk nf tmps.length (tmps.map fileBytes)),
        tmps.length + roundsCount tmps.length)

/-- The whole program (`readAllLines` feeding `mergeSort`) with faithful
spill-file contents. -/
def programRunDisk (nf : Bool) (files : List (List Nat)) : List Line × Nat × List Unit :=
  let rd := files.map readLinesGo
  let ls := catL (rd.map Prod.fst)
  let es := catL (rd.map Prod.snd)
  let r := mergeSortRunDisk nf ls
  (r.1, r.2, es)

/-- An input stream of exactly `chunkSize` lines — one full chunk, which
forces a spill: the line `\t` (byte 9), the line `\r` (input bytes
`\r\r\n`; `ReadLine` treats the final `\r\n` as the terminator), then
the line `z` (byte 122) repeated. -/
def badFile : List Nat :=
  [9, 10, 13, 13, 10] ++ catL (List.replicate (chunkSize - 2) [122, 10])

/-- The lines the reader delivers for `badFile`. -/
def badLines : List Str := [9] :: [13] :: List.replicate (chunkSize - 2) [122]

/-- The byte content `writeChunk` produces for the sorted `badLines`
chunk: the `\r` line is stored as the two bytes `0D 0A`. -/
def spillBytes : List Nat :=
  [9, 10, 13, 10] ++ catL (List.replicate (chunkSize - 2) [122, 10])

end ExtSort

namespace ExtSort

theorem rawSegs_zTail : ∀ n : Nat,
    rawSegs (catL (List.replicate n [122, 10])) = List.replicate n [122] := by
  intro n
  induction n with
  | zero => rfl
  | succ n ih =>
    rw [List.replicate_succ]
    simp only [catL, List.cons_append, List.nil_append]
    have hidx : idx10 (122 :: 10 :: catL (List.replicate n [122, 10])) = some 1 := by
      simp [idx10]
    rw [rawSegs_eq_some hidx]
    simp only [List.take_succ_cons, List.take_zero, List.drop_succ_cons, List.drop_zero]
    rw [ih, List.replicate_succ]

theorem linesOf_zTail : ∀ n : Nat,
    linesOf (catL (List.replicate n [122, 10])) = List.replicate n [122] := by
  intro n
  induction n with
  | zero => rfl
  | succ n ih =>
    rw [List.replicate_succ]
    simp only [catL, List.cons_append, List.nil_append]
    have hidx : idx10 (122 :: 10 :: catL (List.replicate n [122, 10])) = some 1 := by
      simp [idx10]
    rw [linesOf_eq_some hidx]
    simp only [List.take_succ_cons, List.take_zero, List.drop_succ_cons, List.drop_zero]
    have hstrip : stripCR [122] = [122] := by decide
    rw [hstrip, ih, List.replicate_succ]

theorem rawSegs_badFile :
    rawSegs badFile = [9] :: [13, 13] :: List.replicate (chunkSize - 2) [122] := by
  rw [badFile]
  simp only [List.cons_append, List.nil_append]
  have h1 : idx10 (9 :: 10 :: 13 :: 13 :: 10 ::
      catL (List.replicate (chunkSize - 2) [122, 10])) = some 1 := by
    simp [idx10]
  rw [rawSegs_eq_some h1]
  simp only [List.take_succ_cons, List.take_zero, List.drop_succ_cons, List.drop_zero]
  have h2 : idx10 (13 :: 13 :: 10 ::
      catL (List.replicate (chunkSize - 2) [122, 10])) = some 2 := by
    simp [idx10]
  rw [rawSegs_eq_some h2]
  simp only [List.take_succ_cons, List.take_zero, List.drop_succ_cons, List.drop_zero]
  rw [rawSegs_zTail]

theorem linesOf_badFile : linesOf badFile = badLines := by
  rw [badFile, badLines]
  simp only [List.cons_append, List.nil_append]
  have h1 : idx10 (9 :: 10 :: 13 :: 13 :: 10 ::
      catL (List.replicate (chunkSize - 2) [122, 10])) = some 1 := by
    simp [idx10]
  rw [linesOf_eq_some h1]
  simp only [List.take_succ_cons, List.take_zero, List.drop_succ_cons, List.drop_zero]
  have hs1 : stripCR [9] = [9] := by decide
  rw [hs1]
  have h2 : idx10 (13 :: 13 :: 10 ::
      catL (List.replicate (chunkSize - 2) [122, 10])) = some 2 := by
    simp [idx10]
  rw [linesOf_eq_some h2]
  simp only [List.take_succ_cons, List.take_zero, List.drop_succ_cons, List.drop_zero]
  have hs2 : stripCR [13, 13] = [13] := by decide
  rw [hs2, linesOf_zTail]

theorem rawSegs_spillBytes :
    rawSegs spillBytes = [9] :: [13] :: List.replicate (chunkSize - 2) [122] := by
  rw [spillBytes]
  simp only [List.cons_append, List.nil_append]
  have h1 : idx10 (9 :: 10 :: 13 :: 10 ::
      catL (List.replicate (chunkSize - 2) [122, 10])) = some 1 := by
    simp [idx10]
  rw [rawSegs_eq_some h1]
  simp only [List.take_succ_cons, List.take_zero, List.drop_succ_cons, List.drop_zero]
  have h2 : idx10 (13 :: 10 ::
      catL (List.replicate (chunkSize - 2) [122, 10])) = some 1 := by
    simp [idx10]
  rw [rawSegs_eq_some h2]
  simp only [List.take_succ_cons, List.take_zero, List.drop_succ_cons, List.drop_zero]
  rw [rawSegs_zTail]

theorem linesOf_spillBytes :
    linesOf spillBytes = [9] :: [] :: List.replicate (chunkSize - 2) [122] := by
  rw [spillBytes]
  simp only [List.cons_append, List.nil_append]
  have h1 : idx10 (9 :: 10 :: 13 :: 10 ::
      catL (List.replicate (chunkSize - 2) [122, 10])) = some 1 := by
    simp [idx10]
  rw [linesOf_eq_some h1]
  simp only [List.take_succ_cons, List.take_zero, List.drop_succ_cons, List.drop_zero]
  have hs1 : stripCR [9] = [9] := by decide
  rw [hs1]
  have h2 : idx10 (13 :: 10 ::
      catL (List.replicate (chunkSize - 2) [122, 10])) = some 1 := by
    simp [idx10]
  rw [linesOf_eq_some h2]
  simp only [List.take_succ_cons, List.take_zero, List.drop_succ_cons, List.drop_zero]
  have hs2 : stripCR [13] = [] := by decide
  rw [hs2, linesOf_zTail]

theorem reader_badFile : readLinesGo badFile = (badLines, []) := by
  have hseg : ∀ s ∈ rawSegs badFile, s.length < bufSize := by
    intro s hs
    rw [rawSegs_badFile] at hs
    rcases List.mem_cons.mp hs with rfl | hs
    · decide
    · rcases List.mem_cons.mp hs with rfl | hs
      · decide
      · rw [List.eq_of_mem_replicate hs]
        decide
  rw [readLinesGo_linesOf badFile hseg, linesOf_badFile]

theorem chunks_single_of_le {nf : Bool} {sz : Nat} {ls : List Str} (hne : ls ≠ [])
    (hle : ls.length ≤ sz) : chunks nf sz ls = [sortGo nf (ls.map (makeLine nf))] := by
  cases ls with
  | nil => exact absurd rfl hne
  | cons l ls' =>
    rw [chunks, List.length_cons, chunksAux]
    have htake : (l :: ls').take sz = l :: ls' := List.take_of_length_le hle
    have hdrop : (l :: ls').drop sz = [] := List.drop_eq_nil_of_le hle
    rw [htake, hdrop, chunksAux_nil]

theorem sorted_replicate (nf : Bool) (n : Nat) (x : Line) (hx : lineLE nf x x) :
    List.Sorted (lineLE nf) (List.replicate n x) := by
  induction n with
  | zero => exact List.sorted_nil
  | succ n ih =>
    rw [List.replicate_succ, List.sorted_cons]
    exact ⟨fun y hy => by rw [List.eq_of_mem_replicate hy]; exact hx, ih⟩

theorem badLines_length : badLines.length = chunkSize := by
  have h2 : (2 : Nat) ≤ chunkSize := by decide
  rw [badLines, List.length_cons, List.length_cons, List.length_replicate]
  omega

theorem sorted_chunkN (n : Nat) :
    List.Sorted (lineLE false)
      ((([9] : Str) :: [13] :: List.replicate n [122]).map (makeLine false)) := by
  rw [List.map_cons, List.map_cons, List.map_replicate]
  rw [List.sorted_cons]
  refine ⟨?_, ?_⟩
  · intro y hy
    rcases List.mem_cons.mp hy with rfl | hy
    · decide
    · rw [List.eq_of_mem_replicate hy]
      decide
  · rw [List.sorted_cons]
    refine ⟨?_, ?_⟩
    · intro y hy
      rw [List.eq_of_mem_replicate hy]
      decide
    · exact sorted_replicate false _ _ (by decide)

theorem badLines_sorted :
    List.Sorted (lineLE false) (badLines.map (makeLine false)) := by
  rw [badLines]
  exact sorted_chunkN _

theorem fileBytes_chunkN (n : Nat) :
    fileBytes ((([9] : Str) :: [13] :: List.replicate n [122]).map (makeLine false)) =
      [9, 10, 13, 10] ++ catL (List.replicate n [122, 10]) := by
  rw [fileBytes, List.map_map]
  have hfun : ((fun l => l.str ++ [10]) ∘ makeLine false) = fun s : Str => s ++ [10] := by
    funext s
    simp [makeLine_str]
  rw [hfun, List.map_cons, List.map_cons, List.map_replicate, catL, catL]
  simp only [List.cons_append, List.nil_append]

theorem fileBytes_badChunk :
    fileBytes (badLines.map (makeLine false)) = spillBytes := by
  rw [badLines, spillBytes, fileBytes_chunkN]

theorem mergeAllAux_single (nf : Bool) : ∀ (f : Nat) (s : List Line), s.length ≤ f →
    mergeAllAux nf f [s] = s := by
  intro f
  induction f with
  | zero =>
    intro s hlen
    have : s = [] := List.length_eq_zero.mp (Nat.le_zero.mp hlen)
    subst this
    rfl
  | succ f ih =>
    intro s hlen
    cases s with
    | nil => simp [mergeAllAux, popMin]
    | cons a as =>
      have hpop : popMin nf [a :: as] = some (a, [as]) := by
        simp [popMin]
      simp only [mergeAllAux, hpop]
      rw [ih as (by simp only [List.length_cons] at hlen; omega)]

theorem mergeAll_single (nf : Bool) (s : List Line) : mergeAll nf [s] = s := by
  rw [mergeAll]
  apply mergeAllAux_single
  simp [flatL]

theorem readChunkFile_spillBytes :
    readChunkFile false spillBytes =
      makeLine false [9] :: makeLine false [] ::
        List.replicate (chunkSize - 2) (makeLine false [122]) := by
  have hseg : ∀ s ∈ rawSegs spillBytes, s.length < bufSize := by
    intro s hs
    rw [rawSegs_spillBytes] at hs
    rcases List.mem_cons.mp hs with rfl | hs
    · decide
    · rcases List.mem_cons.mp hs with rfl | hs
      · decide
      · rw [List.eq_of_mem_replicate hs]
        decide
  rw [readChunkFile, ← readLinesGo_eq_noskip, readLinesGo_linesOf spillBytes hseg]
  rw [linesOf_spillBytes]
  rw [List.map_cons, List.map_cons, List.map_replicate]

theorem mergeSortRunDisk_badLines :
    (mergeSortRunDisk false badLines).1 =
      makeLine false [9] :: makeLine false [] ::
        List.replicate (chunkSize - 2) (makeLine false [122]) := by
  have hne : badLines ≠ [] := by rw [badLines]; simp
  have hle : badLines.length ≤ chunkSize := Nat.le_of_eq badLines_length
  have hchunks : chunks false chunkSize badLines =
      [sortGo false (badLines.map (makeLine false))] := chunks_single_of_le hne hle
  have hsort : sortGo false (badLines.map (makeLine false)) =
      badLines.map (makeLine false) := List.Sorted.insertionSort_eq badLines_sorted
  have hclen : (sortGo false (badLines.map (makeLine false))).length = chunkSize := by
    rw [hsort, List.length_map, badLines_length]
  rw [mergeSortRunDisk, hchunks,
    spillLoop_start_full (by rw [hclen]; exact Nat.lt_irrefl _)]
  simp only [List.isEmpty_cons, Bool.false_eq_true, if_false]
  simp only [List.length_cons, List.length_nil, List.map_cons, List.map_nil]
  rw [hsort, fileBytes_badChunk]
  rw [show mergeRoundsDisk false (0 + 1) [spillBytes] = [spillBytes] from by
    rw [mergeRoundsDisk]
    rw [if_neg (by simp only [List.length_singleton]; decide)]]
  rw [mergeAllDisk, List.map_cons, List.map_nil, mergeAll_single, readChunkFile_spillBytes]

theorem programRunDisk_out (nf : Bool) (files : List (List Nat)) :
    (programRunDisk nf files).1 =
      (mergeSortRunDisk nf (catL ((files.map readLinesGo).map Prod.fst))).1 := rfl

theorem not_sorted_of_head_pair {a b : Line} (t : List Line)
    (h : Line.less false b a = true) :
    ¬ List.Sorted (lineLE false) (a :: b :: t) := by
  intro hs
  have hle : lineLE false a b := (List.sorted_cons.mp hs).1 b (List.mem_cons_self _ _)
  have hle' : Line.less false b a = false := hle
  rw [h] at hle'
  exact absurd hle' (by simp)

/-- C1: the claim fails on the code. `writeChunk` serializes a spilled
chunk as `str+"\n"` and every merge re-reads its sources with
`bufio.ReadLine`, which strips a trailing `"\r\n"`: a delivered line
consisting of one carriage-return byte (input bytes `0D 0D 0A`) is
stored as `0D 0A` and reads back as the empty line. On `badFile` — one
full chunk holding the lines `\t`, `\r`, then 499998 times `z` — the
spilled run emits that empty line right after `\t`, so the program's
output is not non-decreasing under the byte-wise comparator. -/
theorem c1_spill_roundtrip_unsorted :
    ¬ List.Sorted (lineLE false) (programRunDisk false [badFile]).1 := by
  intro hs
  have hls : catL (([badFile].map readLinesGo).map Prod.fst) = badLines := by
    simp [reader_badFile, catL]
  rw [programRunDisk_out, hls, mergeSortRunDisk_badLines] at hs
  exact not_sorted_of_head_pair _ (by decide) hs

end ExtSort
